import Mathlib

/-!
# Verification of the clustered local-time-stepping (LTS) core and fault friction model

This development formalises the time-advancement and fault-coupling core described
in the repository's specification: the cluster scheduler, the rate-based cluster
assignment, the linear-slip-weakening and rate-and-state friction laws, and the
analytic stress/traction computations carried out in the TPV13 notebook.

The scheduler and friction components are not shipped as code in this repository
(the notebooks orchestrate a prebuilt simulation executable), so those parts are
modelled from the specification text; the stress-tensor/traction computations are
translated from the notebook's symbolic (sympy) code.

Times in the scheduler model are measured in integer units of the minimal stable
time step `Δt_min`, so a cluster at rate level `c` with rate `r` has step `r ^ c`.
-/

set_option maxHeartbeats 1600000

/-- Modelled from the spec: a time-step cluster as seen by the Cluster Scheduler.
It owns its (fixed) time step `step = Δt_c` and a local time pointer `time = t_c`,
both in units of `Δt_min` (§4.2: "Maintains, per cluster c, a local time pointer
t_c, initialized to 0"). -/
structure Cluster where
  step : Nat
  time : Nat
deriving DecidableEq, Repr

/-- Advance a single cluster by one sub-step of its own length (§4.2:
"After each sub-step, `t_c += Δt_c`"). -/
def advCluster (c : Cluster) : Cluster :=
  ⟨c.step, c.time + c.step⟩

/-- Replace the cluster at position `i` by its advanced copy. -/
def stepAt : Nat → List Cluster → List Cluster
  | _, [] => []
  | 0, c :: cs => advCluster c :: cs
  | n + 1, c :: cs => c :: stepAt n cs

/-- Local time of the cluster at index `i` (0 for an out-of-range index). -/
def timeAt (cs : List Cluster) (i : Nat) : Nat :=
  (cs.getD i ⟨0, 0⟩).time

/-- Time step of the cluster at index `i` (0 for an out-of-range index). -/
def stepOf (cs : List Cluster) (i : Nat) : Nat :=
  (cs.getD i ⟨0, 0⟩).step

/-- Modelled from the spec: the scheduler's selection rule (§4.2: "Repeatedly
selects the cluster with the smallest `t_c` (ties broken by preferring the
coarser cluster)").  Returns the index of the cluster with minimal local time;
on a time tie the cluster with the larger step (coarser) wins. -/
def pickIdx : List Cluster → Nat
  | [] => 0
  | [_] => 0
  | c :: d :: rest =>
    if timeAt (d :: rest) (pickIdx (d :: rest)) < c.time ∨
        (timeAt (d :: rest) (pickIdx (d :: rest)) = c.time ∧
          c.step < stepOf (d :: rest) (pickIdx (d :: rest))) then
      pickIdx (d :: rest) + 1
    else 0

/-- All clusters have reached the target time (§4.2: "Terminates the `advance`
call when every cluster's `t_c ≥ target_time`"). -/
def allDone (target : Nat) (cs : List Cluster) : Bool :=
  cs.all fun c => decide (target ≤ c.time)

/-- Modelled from the spec: the Cluster Scheduler's `advance(target_time)` loop
(§4.2).  Repeatedly picks the due cluster and executes one sub-step until every
cluster has reached `target`.  `fuel` bounds the number of micro-steps (the loop
terminates well before exhausting the fuel supplied by `advance`).  Returns the
final cluster states together with the chronological history of sub-steps: each
entry records the index of the stepped cluster and the cluster states just after
that sub-step. -/
def advanceAux (target : Nat) : Nat → List Cluster → List Cluster × List (Nat × List Cluster)
  | 0, cs => (cs, [])
  | fuel + 1, cs =>
    if allDone target cs then (cs, [])
    else
      let k := pickIdx cs
      let next := advanceAux target fuel (stepAt k cs)
      (next.1, (k, stepAt k cs) :: next.2)

/-- The scheduler's `advance(target_time)` entry point, with fuel ample for the
whole run (each cluster needs at most `target` sub-steps since steps are ≥ 1). -/
def advance (target : Nat) (cs : List Cluster) : List Cluster × List (Nat × List Cluster) :=
  advanceAux target (target * cs.length) cs

/-- Number of sub-steps executed by the cluster at index `i` in a history. -/
def countIdx (i : Nat) (hist : List (Nat × List Cluster)) : Nat :=
  (hist.filter fun e => e.1 == i).length

/-- Modelled from the spec: the times at which the Fault Interface update fires
for a fault face abutting the clusters at indices `i` and `j` (§4.2: "For every
fault face whose two abutting elements ... have equal, newly-advanced `t_c`
values, invokes the Fault Interface update for that face at that common time").
From the sub-step history, keep those sub-steps that moved cluster `i` or `j`
and left the two at equal local times, and record that common time. -/
def faultTimes (i j : Nat) (hist : List (Nat × List Cluster)) : List Nat :=
  (hist.filter fun e =>
      (e.1 == i || e.1 == j) && (timeAt e.2 i == timeAt e.2 j)).map
    fun e => timeAt e.2 i

/-- Build the scheduler's cluster list from rate `r` and a list of levels:
a level-`c` cluster has step `r ^ c` (in units of `Δt_min`) and starts at 0. -/
def mkClusters (r : Nat) (levels : List Nat) : List Cluster :=
  levels.map fun c => ⟨r ^ c, 0⟩

/-- Remaining work of a scheduler state: total number of sub-steps still owed
before every cluster reaches `target`. -/
def measureOf (target : Nat) (cs : List Cluster) : Nat :=
  (cs.map fun c => (target - c.time) / c.step).sum

/-- Invariant of scheduler states for an `advance (target)` call: every cluster
has a positive step that divides both its local time and the target (targets are
synchronization points, multiples of every cluster's step), and no local time
is past the target. -/
def SchedInv (target : Nat) (cs : List Cluster) : Prop :=
  ∀ c ∈ cs, 0 < c.step ∧ c.step ∣ c.time ∧ c.time ≤ target ∧ c.step ∣ target

/-- The sub-step history is a faithful execution path of the scheduler: each
recorded sub-step was taken from a not-yet-finished state, stepped exactly the
cluster selected by the scheduling rule, and advanced it by its own step. -/
def isPath (target : Nat) : List Cluster → List (Nat × List Cluster) → Prop
  | _, [] => True
  | cs, e :: tl =>
    allDone target cs = false ∧ e.1 = pickIdx cs ∧ e.2 = stepAt (pickIdx cs) cs ∧
      isPath target e.2 tl

/-- The successive local times of the cluster at index `i` along a run:
its pre-call time followed by its time after each recorded sub-step. -/
def timesTrace (i : Nat) (cs : List Cluster) (hist : List (Nat × List Cluster)) : List Nat :=
  timeAt cs i :: hist.map fun e => timeAt e.2 i

/-- Modelled from the spec: the run of plain global time stepping (GTS) with a
single global step `s`, expressed as the list of successive synchronization
times up to `target` (in units of `Δt_min`; `r = 1` degenerates to GTS, §2/§8).
This is the reference model the `r = 1` scheduler run is compared against. -/
def gtsTimes (s target : Nat) : List Nat :=
  (List.range (target / s)).map fun k => (k + 1) * s

/-! ### Cluster assignment (§4.1) -/

/-- Minimum of a list of stable time steps (`Δt_min = min_e Δt_e`). -/
def minOf : List ℚ → ℚ
  | [] => 0
  | [x] => x
  | x :: xs => min x (minOf xs)

/-- Search bound for the cluster level: no candidate level can exceed the
numerator of `Δt_e / Δt_min` (since `2 ^ c > c` and the rate is at least 2). -/
def levelBound (q : ℚ) : ℕ := q.num.toNat

/-- The candidate predicate of Cluster Assignment: level `c` is admissible for
an element when `r^c · Δt_min ≤ Δt_e` (§4.1). -/
def levelPred (rate : ℕ) (dtmin dte : ℚ) (c : ℕ) : Prop :=
  (rate : ℚ) ^ c * dtmin ≤ dte

instance (rate : ℕ) (dtmin dte : ℚ) : DecidablePred (levelPred rate dtmin dte) :=
  fun c => inferInstanceAs (Decidable ((rate : ℚ) ^ c * dtmin ≤ dte))

/-- Modelled from the spec: Cluster Assignment for one element (§4.1: "compute
`Δt_min`; for each element, find the largest `c` such that
`r^c · Δt_min ≤ Δt_e`").  Ties at an exact power-of-`r` boundary round to the
coarser cluster, because the largest level still satisfying `≤` is taken.
For `rate ≤ 1` there is no largest such level (every level satisfies the
bound), and the assignment degenerates to the single global cluster, level 0
(§2: "`r=1` degenerates to global time stepping"). -/
def assignLevel (rate : ℕ) (dtmin dte : ℚ) : ℕ :=
  if rate ≤ 1 then 0
  else Nat.findGreatest (levelPred rate dtmin dte) (levelBound (dte / dtmin))

/-- Modelled from the spec: Cluster Assignment over the whole element set,
run once at setup (§4.1). -/
def clusterAssign (rate : ℕ) (dts : List ℚ) : List ℕ :=
  dts.map (assignLevel rate (minOf dts))

/-- The time step of cluster level `c`: `Δt_c = r^c · Δt_min` (§2, data model). -/
def dtOfLevel (rate : ℕ) (dtmin : ℚ) (c : ℕ) : ℚ := (rate : ℚ) ^ c * dtmin

/-! ### Friction laws (§4.4) -/

/-- Parameters of the linear slip-weakening (LSW) friction law: static and
dynamic friction coefficients and the slip-weakening distance. -/
structure LSWParams where
  mu_s : ℚ
  mu_d : ℚ
  d_c : ℚ
deriving DecidableEq

/-- Modelled from the spec: the LSW friction coefficient as a function of
accumulated slip (§4.4: "strength degrades linearly from static coefficient
`μ_s` to dynamic coefficient `μ_d` over a slip-weakening distance `D_c`; once
accumulated slip ≥ `D_c`, strength is pinned at `μ_d · σ_n`"). -/
def lswMu (p : LSWParams) (slip : ℚ) : ℚ :=
  if p.d_c ≤ slip then p.mu_d else p.mu_s - (p.mu_s - p.mu_d) * slip / p.d_c

/-- The LSW frictional shear strength `μ(slip) · σ_n` at normal stress `sigma`. -/
def lswStrength (p : LSWParams) (sigma slip : ℚ) : ℚ := lswMu p slip * sigma

/-- The current frictional strength bound of the LSW law: zero when the fault
is open (`σ_n ≤ 0`, §4.4 edge case policy), else `μ(slip) · σ_n`. -/
def lswBound (p : LSWParams) (sigma slip : ℚ) : ℚ :=
  if sigma ≤ 0 then 0 else lswStrength p sigma slip

/-- Modelled from the spec: the LSW `update` (§4.4 common contract
`update(state, normal_stress, trial_shear_stress, slip_rate_prev, Δt) →
(shear_stress, slip_rate, new_state)`, state = accumulated slip).  A fault
opening (`σ_n ≤ 0`) disables shear resistance for the sub-step; otherwise the
trial stress is kept if it does not exceed the strength (stick), else the
stress is capped at the strength and the excess drives slip at unit
compliance, integrated over `dt` into the accumulated slip. -/
def lswUpdate (p : LSWParams) (slip sigma tau dt : ℚ) : ℚ × ℚ × ℚ :=
  if sigma ≤ 0 then (0, tau, slip + tau * dt)
  else if tau ≤ lswStrength p sigma slip then (tau, 0, slip)
  else (lswStrength p sigma slip, tau - lswStrength p sigma slip,
    slip + (tau - lswStrength p sigma slip) * dt)

/-- Parameters of the rate-and-state (RS) local solve: elastic (radiation
damping) coefficient, iteration bound, convergence tolerance, and the factor by
which the tolerance is relaxed on the single permitted retry (§4.4/§7). -/
structure RSParams where
  eta : ℚ
  maxIter : ℕ
  tol : ℚ
  relax : ℚ
deriving DecidableEq

/-- Modelled from the spec: the bounded fixed-point iteration of the RS local
solve (§4.4: "requires a local iterative solve each call because the friction
coefficient depends implicitly on the unknown slip rate, which itself depends
on the friction coefficient through the elastic boundary condition").  `mu` is
the nonlinear friction coefficient as a function of slip rate and the internal
state variable; each iterate solves the elastic relation
`τ = τ_trial − η · V = μ(V, θ) · σ_n` for `V` at the current coefficient. -/
def rsIter (mu : ℚ → ℚ → ℚ) (p : RSParams) (sigma tau theta : ℚ) : ℕ → ℚ → ℚ
  | 0, v => v
  | n + 1, v => rsIter mu p sigma tau theta n ((tau - mu v theta * sigma) / p.eta)

/-- Residual of the RS nonlinear equation at slip rate `v`. -/
def rsResidual (mu : ℚ → ℚ → ℚ) (p : RSParams) (sigma tau theta v : ℚ) : ℚ :=
  tau - p.eta * v - mu v theta * sigma

/-- One bounded solve attempt: iterate `maxIter` times from 0 and accept the
result only if the residual meets the tolerance; otherwise report failure
(no unconverged value is ever returned). -/
def rsSolve (mu : ℚ → ℚ → ℚ) (p : RSParams) (sigma tau theta tol : ℚ) : Option ℚ :=
  if |rsResidual mu p sigma tau theta (rsIter mu p sigma tau theta p.maxIter 0)| ≤ tol then
    some (rsIter mu p sigma tau theta p.maxIter 0)
  else none

/-- Result of an RS friction update: either the resolved
`(shear_stress, slip_rate, new_state)` triple, or the `FrictionSolveError`
reported when the local solve does not converge (§7). -/
inductive RSResult where
  | ok (shear slipRate newState : ℚ)
  | solveError
deriving DecidableEq

/-- Modelled from the spec: the RS `update` (§4.4, §7).  A fault opening
(`σ_n ≤ 0`) disables shear resistance without error; otherwise the local solve
runs once with the configured tolerance, and on failure exactly one retry with
the relaxed tolerance `relax · tol` is permitted before the error escalates
(`FrictionSolveError`, fatal).  `evolve` advances the internal state variable
by its own ODE (aging or slip law) over the sub-step. -/
def rsUpdate (mu : ℚ → ℚ → ℚ) (evolve : ℚ → ℚ → ℚ → ℚ) (p : RSParams)
    (theta sigma tau dt : ℚ) : RSResult :=
  if sigma ≤ 0 then .ok 0 (tau / p.eta) (evolve theta (tau / p.eta) dt)
  else
    match rsSolve mu p sigma tau theta p.tol with
    | some v => .ok (mu v theta * sigma) v (evolve theta v dt)
    | none =>
      match rsSolve mu p sigma tau theta (p.relax * p.tol) with
      | some v => .ok (mu v theta * sigma) v (evolve theta v dt)
      | none => .solveError

/-- The current frictional strength bound of the RS law at the resolved slip
rate and state: zero when the fault is open, else `μ(V, θ) · σ_n`. -/
def rsBound (mu : ℚ → ℚ → ℚ) (sigma v theta : ℚ) : ℚ :=
  if sigma ≤ 0 then 0 else mu v theta * sigma

/-! ### The TPV13 notebook's symbolic stress/traction computation -/

/-- The notebook's stress tensor
`diag((1 + s3_to_s1) · sigma_max / 2, s3_to_s1 · sigma_max, sigma_max)`. -/
def stressTensor {F : Type} [Field F] (s3_to_s1 sigma_max : F) : Matrix (Fin 3) (Fin 3) F :=
  Matrix.diagonal ![(1 + s3_to_s1) * sigma_max / 2, s3_to_s1 * sigma_max, sigma_max]

/-- The fault normal unit vector `(0, −sin(dip), cos(dip))`; the trigonometric
values are passed symbolically, as in the notebook's sympy computation. -/
def u_n {F : Type} [Field F] (sinDip cosDip : F) : Fin 3 → F := ![0, -sinDip, cosDip]

/-- The along-dip unit vector `(0, cos(dip), sin(dip))`. -/
def udip {F : Type} [Field F] (sinDip cosDip : F) : Fin 3 → F := ![0, cosDip, sinDip]

/-- The traction vector `stress · u_n`. -/
def traction {F : Type} [Field F] (s3_to_s1 sigma_max sinDip cosDip : F) : Fin 3 → F :=
  (stressTensor s3_to_s1 sigma_max).mulVec (u_n sinDip cosDip)

/-- The normal traction `sigma_n = traction ⋅ u_n`. -/
def sigma_n {F : Type} [Field F] (s3_to_s1 sigma_max sinDip cosDip : F) : F :=
  Matrix.dotProduct (traction s3_to_s1 sigma_max sinDip cosDip) (u_n sinDip cosDip)

/-- The along-dip shear traction `sigma_d = traction ⋅ udip`. -/
def sigma_d {F : Type} [Field F] (s3_to_s1 sigma_max sinDip cosDip : F) : F :=
  Matrix.dotProduct (traction s3_to_s1 sigma_max sinDip cosDip) (udip sinDip cosDip)

/-- The notebook's relative prestress ratio
`R = (sigma_d − mu_d · sigma_n) / ((mu_s − mu_d) · sigma_n)`. -/
def prestressR {F : Type} [Field F] (s3_to_s1 sigma_max sinDip cosDip mu_s mu_d : F) : F :=
  (sigma_d s3_to_s1 sigma_max sinDip cosDip - mu_d * sigma_n s3_to_s1 sigma_max sinDip cosDip) /
    ((mu_s - mu_d) * sigma_n s3_to_s1 sigma_max sinDip cosDip)

/-! ### Basic lemmas about the scheduler state operations -/

lemma timeAt_cons_zero (c : Cluster) (cs : List Cluster) : timeAt (c :: cs) 0 = c.time := rfl

lemma timeAt_cons_succ (c : Cluster) (cs : List Cluster) (i : Nat) :
    timeAt (c :: cs) (i + 1) = timeAt cs i := rfl

lemma stepOf_cons_zero (c : Cluster) (cs : List Cluster) : stepOf (c :: cs) 0 = c.step := rfl

lemma stepOf_cons_succ (c : Cluster) (cs : List Cluster) (i : Nat) :
    stepOf (c :: cs) (i + 1) = stepOf cs i := rfl

lemma length_stepAt : ∀ (k : Nat) (cs : List Cluster), (stepAt k cs).length = cs.length
  | _, [] => by cases ‹Nat› <;> rfl
  | 0, _ :: _ => rfl
  | k + 1, _ :: cs => by simp [stepAt, length_stepAt k cs]

lemma timeAt_stepAt_self : ∀ (k : Nat) (cs : List Cluster),
    timeAt (stepAt k cs) k = timeAt cs k + stepOf cs k
  | _, [] => by cases ‹Nat› <;> simp [stepAt, timeAt, stepOf]
  | 0, _ :: _ => rfl
  | k + 1, _ :: cs => timeAt_stepAt_self k cs

lemma timeAt_stepAt_ne : ∀ (k i : Nat) (cs : List Cluster), i ≠ k →
    timeAt (stepAt k cs) i = timeAt cs i
  | _, _, [], _ => by simp [stepAt]
  | 0, 0, _ :: _, h => absurd rfl h
  | 0, _ + 1, _ :: _, _ => rfl
  | _ + 1, 0, _ :: _, _ => rfl
  | k + 1, i + 1, _ :: cs, h => timeAt_stepAt_ne k i cs (by omega)

lemma stepOf_stepAt : ∀ (k i : Nat) (cs : List Cluster), stepOf (stepAt k cs) i = stepOf cs i
  | _, _, [] => by simp [stepAt]
  | 0, 0, _ :: _ => rfl
  | 0, _ + 1, _ :: _ => rfl
  | _ + 1, 0, _ :: _ => rfl
  | k + 1, i + 1, _ :: cs => stepOf_stepAt k i cs

lemma map_stepAt_proj (target : Nat) : ∀ (k : Nat) (cs : List Cluster),
    (stepAt k cs).map (fun c => (⟨c.step, target⟩ : Cluster)) =
      cs.map (fun c => (⟨c.step, target⟩ : Cluster))
  | _, [] => by simp [stepAt]
  | 0, c :: cs => by simp [stepAt, advCluster]
  | k + 1, c :: cs => by simp [stepAt, map_stepAt_proj target k cs]

lemma pickIdx_lt_length : ∀ (cs : List Cluster), cs ≠ [] → pickIdx cs < cs.length
  | [], h => absurd rfl h
  | [_], _ => by simp [pickIdx]
  | c :: d :: rest, _ => by
    have ih := pickIdx_lt_length (d :: rest) (by simp)
    rw [pickIdx]
    split
    · simpa using Nat.succ_lt_succ ih
    · simp

lemma pickIdx_min : ∀ (cs : List Cluster) (i : Nat), i < cs.length →
    timeAt cs (pickIdx cs) ≤ timeAt cs i
  | [], _, h => by simp at h
  | [_], i, h => by
    have : i = 0 := by simpa using Nat.lt_one_iff.mp (by simpa using h)
    subst this
    simp [pickIdx]
  | c :: d :: rest, i, h => by
    rw [pickIdx]
    split
    case isTrue hc =>
      rcases i with _ | i
      · rw [timeAt_cons_succ, timeAt_cons_zero]
        rcases hc with hlt | ⟨heq, _⟩
        · exact Nat.le_of_lt hlt
        · exact Nat.le_of_eq heq
      · rw [timeAt_cons_succ, timeAt_cons_succ]
        exact pickIdx_min (d :: rest) i (by simpa using h)
    case isFalse hc =>
      push_neg at hc
      rcases i with _ | i
      · exact Nat.le_refl _
      · rw [timeAt_cons_zero, timeAt_cons_succ]
        exact Nat.le_trans hc.1 (pickIdx_min (d :: rest) i (by simpa using h))

lemma allDone_eq_true (target : Nat) (cs : List Cluster) :
    allDone target cs = true ↔ ∀ c ∈ cs, target ≤ c.time := by
  simp [allDone]

lemma allDone_eq_false (target : Nat) (cs : List Cluster) :
    allDone target cs = false ↔ ∃ c ∈ cs, c.time < target := by
  rw [← Bool.not_eq_true, allDone_eq_true]
  push_neg
  simp

lemma div_sub_succ (s t target : Nat) (hs : 0 < s) (hd : s ∣ target - t) (hlt : t < target) :
    (target - (t + s)) / s + 1 = (target - t) / s := by
  obtain ⟨q, hq⟩ := hd
  rcases q with _ | q
  · simp at hq
    omega
  · have hms : s * (q + 1) = s * q + s := Nat.mul_succ s q
    have e1 : target - (t + s) = s * q := by omega
    have e2 : target - t = s * (q + 1) := hq
    rw [e1, e2, Nat.mul_div_cancel_left _ hs, Nat.mul_div_cancel_left _ hs]

lemma measureOf_le (target : Nat) : ∀ cs : List Cluster,
    measureOf target cs ≤ target * cs.length
  | [] => by simp [measureOf]
  | c :: cs => by
    have ih := measureOf_le target cs
    have h1 : (target - c.time) / c.step ≤ target :=
      Nat.le_trans (Nat.div_le_self _ _) (Nat.sub_le _ _)
    simp only [measureOf, List.map_cons, List.sum_cons, List.length_cons] at *
    calc (target - c.time) / c.step + (cs.map fun c => (target - c.time) / c.step).sum
        ≤ target + target * cs.length := Nat.add_le_add h1 ih
      _ = target * (cs.length + 1) := by ring

lemma measureOf_stepAt (target : Nat) : ∀ (k : Nat) (cs : List Cluster),
    0 < stepOf cs k → stepOf cs k ∣ (target - timeAt cs k) → timeAt cs k < target →
    measureOf target (stepAt k cs) + 1 = measureOf target cs
  | _, [], hs, _, _ => by
    simp [stepOf] at hs
  | 0, c :: cs, hs, hd, hlt => by
    simp only [stepOf_cons_zero] at hs
    simp only [timeAt_cons_zero] at hd hlt
    simp only [stepAt, measureOf, List.map_cons, List.sum_cons, advCluster]
    have := div_sub_succ c.step c.time target hs (by simpa using hd) hlt
    omega
  | k + 1, c :: cs, hs, hd, hlt => by
    simp only [stepOf_cons_succ] at hs
    simp only [timeAt_cons_succ] at hd hlt
    have ih := measureOf_stepAt target k cs hs hd hlt
    simp only [stepAt, measureOf, List.map_cons, List.sum_cons] at *
    omega

lemma schedInv_idx (target : Nat) (cs : List Cluster) (i : Nat)
    (h : SchedInv target cs) (hi : i < cs.length) :
    0 < stepOf cs i ∧ stepOf cs i ∣ timeAt cs i ∧ timeAt cs i ≤ target ∧
      stepOf cs i ∣ target := by
  have hmem : cs.getD i ⟨0, 0⟩ ∈ cs := by
    rw [List.getD_eq_getElem cs _ hi]
    exact List.getElem_mem hi
  exact h _ hmem

lemma schedInv_stepAt (target : Nat) : ∀ (k : Nat) (cs : List Cluster),
    SchedInv target cs → timeAt cs k < target → SchedInv target (stepAt k cs)
  | _, [], h, _ => by simpa [stepAt] using h
  | 0, c :: cs, h, hlt => by
    intro c' hc'
    simp only [stepAt, advCluster, List.mem_cons] at hc'
    rcases hc' with rfl | hc'
    · obtain ⟨hs, hdt, hle, hdtar⟩ := h c (by simp)
      refine ⟨hs, dvd_add hdt dvd_rfl, ?_, hdtar⟩
      show c.time + c.step ≤ target
      have hdsub : c.step ∣ target - c.time := Nat.dvd_sub' hdtar hdt
      have : c.step ≤ target - c.time :=
        Nat.le_of_dvd (by simp only [timeAt_cons_zero] at hlt; omega) hdsub
      simp only [timeAt_cons_zero] at hlt
      omega
    · exact h c' (by simp [hc'])
  | k + 1, c :: cs, h, hlt => by
    intro c' hc'
    simp only [stepAt, List.mem_cons] at hc'
    rcases hc' with rfl | hc'
    · exact h c' (by simp)
    · exact schedInv_stepAt target k cs (fun x hx => h x (by simp [hx]))
        (by simpa using hlt) c' hc'

lemma map_to_target (target : Nat) : ∀ cs : List Cluster, (∀ c ∈ cs, c.time = target) →
    cs.map (fun c => (⟨c.step, target⟩ : Cluster)) = cs
  | [], _ => rfl
  | c :: cs, h => by
    have hc := h c (by simp)
    have ih := map_to_target target cs (fun x hx => h x (by simp [hx]))
    simp only [List.map_cons, ih, List.cons.injEq]
    exact ⟨by rw [← hc], trivial⟩

lemma countIdx_cons (i k : Nat) (s : List Cluster) (tl : List (Nat × List Cluster)) :
    countIdx i ((k, s) :: tl) = countIdx i tl + (if k = i then 1 else 0) := by
  simp only [countIdx, List.filter_cons]
  split
  case isTrue hki =>
    simp only [beq_iff_eq] at hki
    simp [hki, List.length_cons]
  case isFalse hki =>
    simp only [beq_iff_eq] at hki
    simp [hki]

lemma times_eq_target_of_measure_zero (target : Nat) (cs : List Cluster)
    (hinv : SchedInv target cs) (hm : measureOf target cs = 0) :
    ∀ c ∈ cs, c.time = target := by
  intro c hc
  obtain ⟨hs, hdt, hle, hdtar⟩ := hinv c hc
  have hz : (target - c.time) / c.step = 0 := by
    have hmem : (target - c.time) / c.step ∈
        cs.map (fun c => (target - c.time) / c.step) :=
      List.mem_map_of_mem _ hc
    exact List.sum_eq_zero_iff.mp hm _ hmem
  obtain ⟨q, hq⟩ := Nat.dvd_sub' hdtar hdt
  rw [hq, Nat.mul_div_cancel_left _ hs] at hz
  subst hz
  simp at hq
  omega

lemma timeAt_eq_target (target : Nat) (cs : List Cluster) (i : Nat) (hi : i < cs.length)
    (hall : ∀ c ∈ cs, c.time = target) : timeAt cs i = target := by
  rw [timeAt, List.getD_eq_getElem cs _ hi]
  exact hall _ (List.getElem_mem hi)

theorem advanceAux_spec (target : Nat) : ∀ (fuel : Nat) (cs : List Cluster),
    SchedInv target cs → measureOf target cs ≤ fuel →
    (advanceAux target fuel cs).1 = cs.map (fun c => (⟨c.step, target⟩ : Cluster)) ∧
      ∀ i, i < cs.length →
        countIdx i (advanceAux target fuel cs).2 = (target - timeAt cs i) / stepOf cs i := by
  intro fuel
  induction fuel with
  | zero =>
    intro cs hinv hm
    have hall : ∀ c ∈ cs, c.time = target :=
      times_eq_target_of_measure_zero target cs hinv (Nat.le_zero.mp hm)
    constructor
    · exact (map_to_target target cs hall).symm
    · intro i hi
      show countIdx i [] = _
      rw [timeAt_eq_target target cs i hi hall]
      simp [countIdx]
  | succ fuel ih =>
    intro cs hinv hm
    by_cases hdone : allDone target cs = true
    · have hall : ∀ c ∈ cs, c.time = target := fun c hc =>
        Nat.le_antisymm (hinv c hc).2.2.1 ((allDone_eq_true target cs).mp hdone c hc)
      rw [advanceAux, if_pos hdone]
      constructor
      · exact (map_to_target target cs hall).symm
      · intro i hi
        rw [timeAt_eq_target target cs i hi hall]
        simp [countIdx]
    · have hfalse : allDone target cs = false := Bool.eq_false_iff.mpr hdone
      obtain ⟨c0, hc0mem, hc0lt⟩ := (allDone_eq_false target cs).mp hfalse
      obtain ⟨i0, hi0, hi0eq⟩ := List.getElem_of_mem hc0mem
      have hne : cs ≠ [] := by
        intro h
        subst h
        simp at hc0mem
      have hklt : pickIdx cs < cs.length := pickIdx_lt_length cs hne
      have htk : timeAt cs (pickIdx cs) < target := by
        have h1 : timeAt cs (pickIdx cs) ≤ timeAt cs i0 := pickIdx_min cs i0 hi0
        have h2 : timeAt cs i0 = c0.time := by
          rw [timeAt, List.getD_eq_getElem cs _ hi0, hi0eq]
        omega
      obtain ⟨hsp, hsdt, htle, hsdtar⟩ := schedInv_idx target cs (pickIdx cs) hinv hklt
      have hinv2 := schedInv_stepAt target (pickIdx cs) cs hinv htk
      have hmeas : measureOf target (stepAt (pickIdx cs) cs) + 1 = measureOf target cs :=
        measureOf_stepAt target _ cs hsp (Nat.dvd_sub' hsdtar hsdt) htk
      have hm2 : measureOf target (stepAt (pickIdx cs) cs) ≤ fuel := by omega
      obtain ⟨ihfst, ihcnt⟩ := ih (stepAt (pickIdx cs) cs) hinv2 hm2
      rw [advanceAux, if_neg (by simp [hfalse])]
      constructor
      · show (advanceAux target fuel (stepAt (pickIdx cs) cs)).1 = _
        rw [ihfst, map_stepAt_proj]
      · intro i hi
        show countIdx i ((pickIdx cs, stepAt (pickIdx cs) cs) ::
          (advanceAux target fuel (stepAt (pickIdx cs) cs)).2) = _
        rw [countIdx_cons]
        have hlen : i < (stepAt (pickIdx cs) cs).length := by
          rw [length_stepAt]
          exact hi
        rw [ihcnt i hlen]
        by_cases hik : pickIdx cs = i
        · subst hik
          rw [if_pos rfl, timeAt_stepAt_self, stepOf_stepAt]
          exact div_sub_succ (stepOf cs (pickIdx cs)) (timeAt cs (pickIdx cs)) target hsp
            (Nat.dvd_sub' hsdtar hsdt) htk
        · rw [if_neg hik, timeAt_stepAt_ne _ _ _ (fun h => hik h.symm), stepOf_stepAt]
          omega

/-! ### The sub-step history is a faithful execution path -/

lemma pick_time_lt (target : Nat) (cs : List Cluster) (hfalse : allDone target cs = false) :
    timeAt cs (pickIdx cs) < target := by
  obtain ⟨c0, hc0mem, hc0lt⟩ := (allDone_eq_false target cs).mp hfalse
  obtain ⟨i0, hi0, hi0eq⟩ := List.getElem_of_mem hc0mem
  have h1 : timeAt cs (pickIdx cs) ≤ timeAt cs i0 := pickIdx_min cs i0 hi0
  have h2 : timeAt cs i0 = c0.time := by
    rw [timeAt, List.getD_eq_getElem cs _ hi0, hi0eq]
  omega

lemma advanceAux_isPath (target : Nat) : ∀ (fuel : Nat) (cs : List Cluster),
    isPath target cs (advanceAux target fuel cs).2
  | 0, cs => trivial
  | fuel + 1, cs => by
    by_cases hdone : allDone target cs = true
    · rw [advanceAux, if_pos hdone]
      trivial
    · have hfalse : allDone target cs = false := Bool.eq_false_iff.mpr hdone
      rw [advanceAux, if_neg (by simp [hfalse])]
      exact ⟨hfalse, rfl, rfl, advanceAux_isPath target fuel (stepAt (pickIdx cs) cs)⟩

lemma timeAt_le_target (target : Nat) (cs : List Cluster) (i : Nat)
    (hinv : SchedInv target cs) : timeAt cs i ≤ target := by
  by_cases hi : i < cs.length
  · exact (schedInv_idx target cs i hinv hi).2.2.1
  · rw [timeAt, List.getD_eq_default _ _ (by omega)]
    exact Nat.zero_le _

lemma isPath_inv (target : Nat) : ∀ (hist : List (Nat × List Cluster)) (cs : List Cluster),
    SchedInv target cs → isPath target cs hist → ∀ e ∈ hist, SchedInv target e.2
  | [], _, _, _ => by simp
  | e :: tl, cs, hinv, hpath => by
    obtain ⟨hfalse, _, he2, htl⟩ := hpath
    have hinv2 : SchedInv target e.2 := by
      rw [he2]
      exact schedInv_stepAt target (pickIdx cs) cs hinv (pick_time_lt target cs hfalse)
    intro x hx
    rcases List.mem_cons.mp hx with rfl | hx
    · exact hinv2
    · exact isPath_inv target tl e.2 hinv2 htl x hx

lemma isPath_chain (target : Nat) (i : Nat) : ∀ (hist : List (Nat × List Cluster))
    (cs : List Cluster), isPath target cs hist →
    List.Chain' (fun x y => y = x + stepOf cs i ∨ y = x) (timesTrace i cs hist)
  | [], cs, _ => List.chain'_singleton _
  | e :: tl, cs, hpath => by
    obtain ⟨hfalse, he1, he2, htl⟩ := hpath
    have hstep : stepOf e.2 i = stepOf cs i := by
      rw [he2, stepOf_stepAt]
    have ihc := isPath_chain target i tl e.2 htl
    rw [hstep] at ihc
    have hhead : timeAt e.2 i = timeAt cs i + stepOf cs i ∨ timeAt e.2 i = timeAt cs i := by
      by_cases hik : i = pickIdx cs
      · subst hik
        rw [he2, timeAt_stepAt_self]
        exact Or.inl rfl
      · rw [he2, timeAt_stepAt_ne _ _ _ hik]
        exact Or.inr rfl
    exact List.chain'_cons.mpr ⟨hhead, ihc⟩

lemma isPath_le_target (target : Nat) (i : Nat) : ∀ (hist : List (Nat × List Cluster))
    (cs : List Cluster), SchedInv target cs → isPath target cs hist →
    ∀ t ∈ timesTrace i cs hist, t ≤ target
  | [], cs, hinv, _ => by
    intro t ht
    simp only [timesTrace, List.map_nil, List.mem_singleton] at ht
    subst ht
    exact timeAt_le_target target cs i hinv
  | e :: tl, cs, hinv, hpath => by
    obtain ⟨hfalse, _, he2, htl⟩ := hpath
    have hinv2 : SchedInv target e.2 := by
      rw [he2]
      exact schedInv_stepAt target (pickIdx cs) cs hinv (pick_time_lt target cs hfalse)
    intro t ht
    rcases List.mem_cons.mp ht with rfl | ht
    · exact timeAt_le_target target cs i hinv
    · exact isPath_le_target target i tl e.2 hinv2 htl t ht

/-! ### Explicit trace of a two-cluster run -/

lemma pickIdx_pair_left (x y : Cluster) (h : x.time < y.time) : pickIdx [x, y] = 0 := by
  simp only [pickIdx, timeAt_cons_zero, stepOf_cons_zero]
  split
  case isTrue hc => omega
  case isFalse hc => rfl

lemma pickIdx_pair_tie (x y : Cluster) (h : y.time = x.time) (hs : x.step < y.step) :
    pickIdx [x, y] = 1 := by
  simp only [pickIdx, timeAt_cons_zero, stepOf_cons_zero]
  split
  case isTrue hc => rfl
  case isFalse hc => omega

lemma advanceAux_step (target fuel : Nat) (cs : List Cluster)
    (hfalse : allDone target cs = false) :
    advanceAux target (fuel + 1) cs =
      ((advanceAux target fuel (stepAt (pickIdx cs) cs)).1,
        (pickIdx cs, stepAt (pickIdx cs) cs) ::
          (advanceAux target fuel (stepAt (pickIdx cs) cs)).2) := by
  rw [advanceAux, if_neg (by simp [hfalse])]

lemma advanceAux_done (target fuel : Nat) (cs : List Cluster)
    (hdone : allDone target cs = true) :
    advanceAux target fuel cs = (cs, []) := by
  cases fuel
  · rfl
  · rw [advanceAux, if_pos hdone]

lemma allDone_pair_false (target : Nat) (x y : Cluster) (h : x.time < target) :
    allDone target [x, y] = false :=
  (allDone_eq_false target [x, y]).mpr ⟨x, by simp, h⟩

lemma countIdx_append (i : Nat) (l1 l2 : List (Nat × List Cluster)) :
    countIdx i (l1 ++ l2) = countIdx i l1 + countIdx i l2 := by
  simp [countIdx, List.filter_append]

lemma faultTimes_append (i j : Nat) (l1 l2 : List (Nat × List Cluster)) :
    faultTimes i j (l1 ++ l2) = faultTimes i j l1 ++ faultTimes i j l2 := by
  simp [faultTimes, List.filter_append]

lemma faultTimes_cons (i j k : Nat) (s : List Cluster) (tl : List (Nat × List Cluster)) :
    faultTimes i j ((k, s) :: tl) =
      (if (k = i ∨ k = j) ∧ timeAt s i = timeAt s j then [timeAt s i] else []) ++
        faultTimes i j tl := by
  simp only [faultTimes, List.filter_cons]
  by_cases hc : (k = i ∨ k = j) ∧ timeAt s i = timeAt s j
  · rw [if_pos hc]
    have hb : ((k == i || k == j) && (timeAt s i == timeAt s j)) = true := by
      obtain ⟨h1, h2⟩ := hc
      rcases h1 with rfl | rfl <;> simp [h2]
    rw [if_pos hb]
    simp
  · rw [if_neg hc]
    have hb : ¬((k == i || k == j) && (timeAt s i == timeAt s j)) = true := by
      simp only [Bool.and_eq_true, Bool.or_eq_true, beq_iff_eq]
      exact hc
    rw [if_neg hb]
    simp

lemma catchUp (a b target : Nat) (ha : 0 < a) :
    ∀ (m fuel T : Nat), 1 ≤ m → m * a ≤ T → T ≤ target →
    ∃ pre,
      advanceAux target (m + fuel) [⟨a, T - m * a⟩, ⟨b, T⟩] =
        ((advanceAux target fuel [⟨a, T⟩, ⟨b, T⟩]).1,
          pre ++ (advanceAux target fuel [⟨a, T⟩, ⟨b, T⟩]).2) ∧
      countIdx 0 pre = m ∧ countIdx 1 pre = 0 ∧ faultTimes 0 1 pre = [T] := by
  intro m
  induction m with
  | zero =>
    intro fuel T h1 _ _
    omega
  | succ m ih =>
    intro fuel T h1 hma hT
    have hsm : (m + 1) * a = m * a + a := Nat.succ_mul m a
    have hfalse : allDone target [(⟨a, T - (m + 1) * a⟩ : Cluster), ⟨b, T⟩] = false := by
      apply allDone_pair_false
      show T - (m + 1) * a < target
      omega
    have hpick : pickIdx [(⟨a, T - (m + 1) * a⟩ : Cluster), ⟨b, T⟩] = 0 := by
      apply pickIdx_pair_left
      show T - (m + 1) * a < T
      omega
    rcases Nat.eq_zero_or_pos m with rfl | hm
    · -- exactly one fine sub-step remains: it lands on the shared time T
      have hstep : stepAt 0 [(⟨a, T - (0 + 1) * a⟩ : Cluster), ⟨b, T⟩] =
          [(⟨a, T⟩ : Cluster), ⟨b, T⟩] := by
        simp only [stepAt, advCluster]
        rw [show T - (0 + 1) * a + a = T by omega]
      refine ⟨[(0, [(⟨a, T⟩ : Cluster), ⟨b, T⟩])], ?_, by simp [countIdx],
        by simp [countIdx], ?_⟩
      · rw [show 0 + 1 + fuel = fuel + 1 by omega, advanceAux_step target fuel _ hfalse,
          hpick, hstep]
        simp
      · rw [faultTimes_cons]
        rw [if_pos ⟨Or.inl rfl, rfl⟩]
        simp [faultTimes, timeAt_cons_zero]
    · -- more than one fine sub-step: peel one off and recurse
      have hstep : stepAt 0 [(⟨a, T - (m + 1) * a⟩ : Cluster), ⟨b, T⟩] =
          [(⟨a, T - m * a⟩ : Cluster), ⟨b, T⟩] := by
        simp only [stepAt, advCluster]
        rw [show T - (m + 1) * a + a = T - m * a by omega]
      obtain ⟨pre, heq, hc0, hc1, hft⟩ := ih fuel T hm (by omega) hT
      refine ⟨(0, [(⟨a, T - m * a⟩ : Cluster), ⟨b, T⟩]) :: pre, ?_, ?_, ?_, ?_⟩
      · rw [show m + 1 + fuel = (m + fuel) + 1 by omega,
          advanceAux_step target (m + fuel) _ hfalse, hpick, hstep, heq]
        simp
      · rw [countIdx_cons, hc0]
        simp
      · rw [countIdx_cons, hc1]
        simp
      · rw [faultTimes_cons, hft]
        rw [if_neg]
        · simp
        · intro hcon
          have : timeAt [(⟨a, T - m * a⟩ : Cluster), ⟨b, T⟩] 0 =
              timeAt [(⟨a, T - m * a⟩ : Cluster), ⟨b, T⟩] 1 := hcon.2
          simp only [timeAt_cons_zero, timeAt_cons_succ] at this
          show False
          have hma' : 1 * a ≤ m * a := Nat.mul_le_mul_right a hm
          omega

lemma periodRun (a r : Nat) (ha : 0 < a) (hr : 2 ≤ r) :
    ∀ (m k fuel : Nat), m * (r + 1) ≤ fuel →
    ∃ hist,
      advanceAux ((k + m) * (a * r)) fuel
          [⟨a, k * (a * r)⟩, ⟨a * r, k * (a * r)⟩] =
        ([⟨a, (k + m) * (a * r)⟩, ⟨a * r, (k + m) * (a * r)⟩], hist) ∧
      countIdx 0 hist = m * r ∧ countIdx 1 hist = m ∧
      faultTimes 0 1 hist = (List.range m).map fun t => (k + 1 + t) * (a * r) := by
  intro m
  induction m with
  | zero =>
    intro k fuel _
    refine ⟨[], ?_, by simp [countIdx], by simp [countIdx], by simp [faultTimes]⟩
    rw [show k + 0 = k by omega]
    apply advanceAux_done
    rw [allDone_eq_true]
    intro c hc
    rcases List.mem_cons.mp hc with rfl | hc
    · exact Nat.le_refl _
    · rcases List.mem_singleton.mp hc with rfl
      exact Nat.le_refl _
  | succ m ih =>
    intro k fuel hfuel
    have hbpos : 0 < a * r := Nat.mul_pos ha (by omega)
    have hadd : (k + (m + 1)) * (a * r) = k * (a * r) + (m + 1) * (a * r) :=
      Nat.add_mul k (m + 1) (a * r)
    have hmul1 : 1 * (a * r) ≤ (m + 1) * (a * r) := Nat.mul_le_mul_right (a * r) (by omega)
    have htlt : k * (a * r) < (k + (m + 1)) * (a * r) := by omega
    have hfalse : allDone ((k + (m + 1)) * (a * r))
        [(⟨a, k * (a * r)⟩ : Cluster), ⟨a * r, k * (a * r)⟩] = false := by
      apply allDone_pair_false
      exact htlt
    have hpick : pickIdx [(⟨a, k * (a * r)⟩ : Cluster), ⟨a * r, k * (a * r)⟩] = 1 := by
      apply pickIdx_pair_tie
      · rfl
      · show a < a * r
        exact (lt_mul_iff_one_lt_right ha).mpr (by omega)
    have hsucc : (k + 1) * (a * r) = k * (a * r) + a * r := Nat.succ_mul k (a * r)
    have hstep : stepAt 1 [(⟨a, k * (a * r)⟩ : Cluster), ⟨a * r, k * (a * r)⟩] =
        [(⟨a, k * (a * r)⟩ : Cluster), ⟨a * r, (k + 1) * (a * r)⟩] := by
      simp only [stepAt, advCluster]
      rw [show k * (a * r) + a * r = (k + 1) * (a * r) from hsucc.symm]
    have hsm : (m + 1) * (r + 1) = m * (r + 1) + (r + 1) := Nat.succ_mul m (r + 1)
    obtain ⟨f, rfl⟩ : ∃ f, fuel = f + 1 := ⟨fuel - 1, by omega⟩
    have hrb : r * a = a * r := Nat.mul_comm r a
    have hT1 : (k + 1) * (a * r) ≤ (k + (m + 1)) * (a * r) :=
      Nat.mul_le_mul_right (a * r) (by omega)
    obtain ⟨pre, hcatch, hc0, hc1, hft⟩ :=
      catchUp a (a * r) ((k + (m + 1)) * (a * r)) ha r (f - r) ((k + 1) * (a * r))
        (by omega) (by omega) hT1
    rw [show (k + 1) * (a * r) - r * a = k * (a * r) by omega] at hcatch
    rw [show r + (f - r) = f by omega] at hcatch
    obtain ⟨hist2, hihres, hic0, hic1, hift⟩ := ih (k + 1) (f - r) (by omega)
    rw [show k + 1 + m = k + (m + 1) by omega] at hihres
    refine ⟨(1, [(⟨a, k * (a * r)⟩ : Cluster), ⟨a * r, (k + 1) * (a * r)⟩]) ::
      (pre ++ hist2), ?_, ?_, ?_, ?_⟩
    · rw [advanceAux_step _ f _ hfalse, hpick, hstep, hcatch, hihres]
    · rw [countIdx_cons, countIdx_append, hc0, hic0, if_neg (by omega : ¬(1 = 0)),
        Nat.succ_mul]
      omega
    · rw [countIdx_cons, countIdx_append, hc1, hic1, if_pos rfl]
      omega
    · rw [faultTimes_cons, faultTimes_append, hft, hift]
      rw [if_neg]
      · rw [List.nil_append, List.range_succ_eq_map, List.map_cons, List.map_map]
        rw [show k + 1 + 0 = k + 1 by omega]
        rw [List.singleton_append, List.cons.injEq]
        refine ⟨rfl, ?_⟩
        apply List.map_congr_left
        intro t _
        show (k + 1 + 1 + t) * (a * r) = (k + 1 + (t + 1)) * (a * r)
        rw [show k + 1 + 1 + t = k + 1 + (t + 1) by omega]
      · intro hcon
        have h2 : timeAt [(⟨a, k * (a * r)⟩ : Cluster), ⟨a * r, (k + 1) * (a * r)⟩] 0 =
            timeAt [(⟨a, k * (a * r)⟩ : Cluster), ⟨a * r, (k + 1) * (a * r)⟩] 1 := hcon.2
        simp only [timeAt_cons_zero, timeAt_cons_succ] at h2
        omega

lemma oneCluster (s : Nat) (hs : 0 < s) :
    ∀ (q t fuel : Nat), q ≤ fuel →
    advanceAux (t + q * s) fuel [⟨s, t⟩] =
      ([⟨s, t + q * s⟩], (List.range q).map fun j => (0, [⟨s, t + (j + 1) * s⟩])) := by
  intro q
  induction q with
  | zero =>
    intro t fuel _
    rw [show t + 0 * s = t by omega]
    rw [advanceAux_done]
    · simp
    · rw [allDone_eq_true]
      intro c hc
      rcases List.mem_singleton.mp hc with rfl
      exact Nat.le_refl _
  | succ q ih =>
    intro t fuel hq
    obtain ⟨f, rfl⟩ : ∃ f, fuel = f + 1 := ⟨fuel - 1, by omega⟩
    have hsm : (q + 1) * s = q * s + s := Nat.succ_mul q s
    have hfalse : allDone (t + (q + 1) * s) [(⟨s, t⟩ : Cluster)] = false := by
      rw [allDone_eq_false]
      refine ⟨⟨s, t⟩, by simp, ?_⟩
      show t < t + (q + 1) * s
      omega
    have hpick : pickIdx [(⟨s, t⟩ : Cluster)] = 0 := by simp [pickIdx]
    rw [advanceAux_step _ f _ hfalse, hpick]
    have hstep : stepAt 0 [(⟨s, t⟩ : Cluster)] = [(⟨s, t + s⟩ : Cluster)] := rfl
    rw [hstep]
    have htar : t + (q + 1) * s = t + s + q * s := by omega
    rw [htar, ih (t + s) f (by omega)]
    dsimp only
    rw [show t + s + q * s = t + (q + 1) * s by omega]
    rw [List.range_succ_eq_map, List.map_cons, List.map_map]
    rw [show t + (0 + 1) * s = t + s by omega]
    have hmap : (List.range q).map
        (fun j => ((0 : Nat), [(⟨s, t + s + (j + 1) * s⟩ : Cluster)])) =
        (List.range q).map
          ((fun j => ((0 : Nat), [(⟨s, t + (j + 1) * s⟩ : Cluster)])) ∘ Nat.succ) := by
      apply List.map_congr_left
      intro j _
      show ((0 : Nat), [(⟨s, t + s + (j + 1) * s⟩ : Cluster)]) =
        ((0 : Nat), [(⟨s, t + (j + 1 + 1) * s⟩ : Cluster)])
      have h1 : (j + 1 + 1) * s = (j + 1) * s + s := Nat.succ_mul (j + 1) s
      rw [show t + s + (j + 1) * s = t + (j + 1 + 1) * s by omega]
    rw [hmap]

/-! ### Claim theorems: the Cluster Scheduler -/

/-- C1: for fault-adjacent clusters at levels `c` and `c+1` with rate `r`, an
`advance` over `n` coarse sub-steps executes exactly `n·r` fine and `n` coarse
sub-steps, and fires the Fault Interface update exactly once per coarse
sub-step, precisely at the times shared by both clusters (the multiples of
`Δt_{c+1}`); a cluster at level `c` executes `n · r^(cmax − c)` sub-steps when
the coarsest cluster (level `cmax`) executes `n`; and in the sampled scenario
(`r = 2`, two clusters, ten coarse steps) there are exactly 20 fine sub-steps,
10 coarse sub-steps, and 10 fault resolutions at the shared times
2, 4, ..., 20 (in units of `Δt_min`). -/
theorem c1_lts_rates :
    (∀ (r c n : Nat), 2 ≤ r →
      ∃ hist,
        advance (n * r ^ (c + 1)) [⟨r ^ c, 0⟩, ⟨r ^ (c + 1), 0⟩] =
          ([⟨r ^ c, n * r ^ (c + 1)⟩, ⟨r ^ (c + 1), n * r ^ (c + 1)⟩], hist) ∧
        countIdx 0 hist = n * r ∧ countIdx 1 hist = n ∧
        faultTimes 0 1 hist = ((List.range n).map fun t => (t + 1) * r ^ (c + 1))) ∧
    (∀ (r n cmax : Nat) (levels : List Nat) (i : Nat), 1 ≤ r → i < levels.length →
      (∀ c ∈ levels, c ≤ cmax) →
      countIdx i (advance (n * r ^ cmax) (mkClusters r levels)).2 =
        n * r ^ (cmax - levels.getD i 0)) ∧
    (countIdx 0 (advance 20 [⟨1, 0⟩, ⟨2, 0⟩]).2 = 20 ∧
      countIdx 1 (advance 20 [⟨1, 0⟩, ⟨2, 0⟩]).2 = 10 ∧
      faultTimes 0 1 (advance 20 [⟨1, 0⟩, ⟨2, 0⟩]).2 =
        [2, 4, 6, 8, 10, 12, 14, 16, 18, 20]) := by
  refine ⟨?_, ?_, by decide, by decide, by decide⟩
  · intro r c n hr
    have ha : 0 < r ^ c := pow_pos (by omega) c
    have hrle : r ≤ r ^ (c + 1) := Nat.le_self_pow (by omega) r
    obtain ⟨hist, heq, h0, h1, hf⟩ :=
      periodRun (r ^ c) r ha hr n 0 (n * r ^ (c + 1) * 2)
        (by
          calc n * (r + 1) ≤ n * (2 * r ^ (c + 1)) := Nat.mul_le_mul_left n (by omega)
            _ = n * r ^ (c + 1) * 2 := by ring)
    rw [← pow_succ] at heq hf
    simp only [Nat.zero_add, Nat.zero_mul] at heq hf
    refine ⟨hist, heq, h0, h1, ?_⟩
    rw [hf]
    apply List.map_congr_left
    intro t _
    rw [show 0 + 1 + t = t + 1 by omega]
  · intro r n cmax levels i hr hi hlev
    have hinv : SchedInv (n * r ^ cmax) (mkClusters r levels) := by
      intro cl hcl
      simp only [mkClusters, List.mem_map] at hcl
      obtain ⟨c, hc, rfl⟩ := hcl
      exact ⟨pow_pos (by omega) c, dvd_zero _, Nat.zero_le _,
        (pow_dvd_pow r (hlev c hc)).mul_left n⟩
    obtain ⟨_, hcnt⟩ := advanceAux_spec (n * r ^ cmax)
      (n * r ^ cmax * (mkClusters r levels).length) (mkClusters r levels) hinv
      (measureOf_le (n * r ^ cmax) (mkClusters r levels))
    have hlen : i < (mkClusters r levels).length := by simpa [mkClusters] using hi
    have hc := hcnt i hlen
    have htime : timeAt (mkClusters r levels) i = 0 := by
      rw [timeAt, List.getD_eq_getElem _ _ hlen]
      simp [mkClusters]
    have hstep : stepOf (mkClusters r levels) i = r ^ (levels.getD i 0) := by
      rw [stepOf, List.getD_eq_getElem _ _ hlen]
      simp only [mkClusters, List.getElem_map]
      rw [List.getD_eq_getElem _ _ hi]
    show countIdx i (advanceAux (n * r ^ cmax)
      (n * r ^ cmax * (mkClusters r levels).length) (mkClusters r levels)).2 = _
    rw [hc, htime, hstep, Nat.sub_zero]
    have hle : levels.getD i 0 ≤ cmax := by
      apply hlev
      rw [List.getD_eq_getElem _ _ hi]
      exact List.getElem_mem hi
    rw [show r ^ cmax = r ^ (levels.getD i 0) * r ^ (cmax - levels.getD i 0) by
      rw [← pow_add]; congr 1; omega]
    rw [show n * (r ^ (levels.getD i 0) * r ^ (cmax - levels.getD i 0)) =
      n * r ^ (cmax - levels.getD i 0) * r ^ (levels.getD i 0) by ring]
    exact Nat.mul_div_cancel _ (pow_pos (by omega) _)

/-- Witness for C1 at concrete inputs (`r = 2`, levels 0 and 1, ten coarse
sub-steps). -/
theorem c1_lts_rates_witness :
    (∃ hist,
        advance (10 * 2 ^ (0 + 1)) [⟨2 ^ 0, 0⟩, ⟨2 ^ (0 + 1), 0⟩] =
          ([⟨2 ^ 0, 10 * 2 ^ (0 + 1)⟩, ⟨2 ^ (0 + 1), 10 * 2 ^ (0 + 1)⟩], hist) ∧
        countIdx 0 hist = 10 * 2 ∧ countIdx 1 hist = 10 ∧
        faultTimes 0 1 hist = ((List.range 10).map fun t => (t + 1) * 2 ^ (0 + 1))) ∧
    countIdx 0 (advance (10 * 2 ^ 1) (mkClusters 2 [0, 1])).2 =
      10 * 2 ^ (1 - [0, 1].getD 0 0) :=
  ⟨c1_lts_rates.1 2 0 10 (by decide),
    c1_lts_rates.2.1 2 10 1 [0, 1] 0 (by decide) (by decide) (by decide)⟩

/-- C3: during any `advance (target)` call on a valid scheduler state (positive
steps dividing both the local times and the target), the sub-step history is a
faithful path (each sub-step is taken only while some cluster is strictly below
`target`), every cluster's time sequence starts at its pre-call value and
changes between consecutive instants only by an addition of its own positive
`Δt_c` (hence is monotonically non-decreasing), no cluster's time ever exceeds
`target`, and at return every cluster's time equals `target` — in particular
the call ends exactly when every cluster has reached the target. -/
theorem c3_advance_invariants (target : Nat) (cs : List Cluster)
    (hinv : SchedInv target cs) :
    isPath target cs (advance target cs).2 ∧
    (∀ i, i < cs.length → 0 < stepOf cs i) ∧
    (∀ i, i < cs.length →
      List.Chain' (fun x y => y = x + stepOf cs i ∨ y = x)
        (timesTrace i cs (advance target cs).2)) ∧
    (∀ i t, t ∈ timesTrace i cs (advance target cs).2 → t ≤ target) ∧
    (∀ i, i < cs.length → timeAt (advance target cs).1 i = target) ∧
    allDone target (advance target cs).1 = true := by
  have hpath : isPath target cs (advance target cs).2 :=
    advanceAux_isPath target (target * cs.length) cs
  have hfst := (advanceAux_spec target (target * cs.length) cs hinv
    (measureOf_le target cs)).1
  refine ⟨hpath, ?_, ?_, ?_, ?_, ?_⟩
  · intro i hi
    exact (schedInv_idx target cs i hinv hi).1
  · intro i _
    exact isPath_chain target i (advance target cs).2 cs hpath
  · intro i t ht
    exact isPath_le_target target i (advance target cs).2 cs hinv hpath t ht
  · intro i hi
    show timeAt (advanceAux target (target * cs.length) cs).1 i = target
    rw [hfst, timeAt]
    have hlen : i < (cs.map fun c => (⟨c.step, target⟩ : Cluster)).length := by
      simpa using hi
    rw [List.getD_eq_getElem _ _ hlen]
    simp
  · show allDone target (advanceAux target (target * cs.length) cs).1 = true
    rw [hfst, allDone_eq_true]
    intro c hc
    simp only [List.mem_map] at hc
    obtain ⟨x, _, rfl⟩ := hc
    exact Nat.le_refl _

/-- Witness for C3 at a concrete state: two clusters with steps 1 and 2
advanced to target time 4. -/
theorem c3_advance_invariants_witness :
    SchedInv 4 [⟨1, 0⟩, ⟨2, 0⟩] ∧
    (isPath 4 [(⟨1, 0⟩ : Cluster), ⟨2, 0⟩] (advance 4 [⟨1, 0⟩, ⟨2, 0⟩]).2 ∧
      (∀ i, i < ([(⟨1, 0⟩ : Cluster), ⟨2, 0⟩] : List Cluster).length →
        0 < stepOf [⟨1, 0⟩, ⟨2, 0⟩] i) ∧
      (∀ i, i < ([(⟨1, 0⟩ : Cluster), ⟨2, 0⟩] : List Cluster).length →
        List.Chain' (fun x y => y = x + stepOf [⟨1, 0⟩, ⟨2, 0⟩] i ∨ y = x)
          (timesTrace i [⟨1, 0⟩, ⟨2, 0⟩] (advance 4 [⟨1, 0⟩, ⟨2, 0⟩]).2)) ∧
      (∀ i t, t ∈ timesTrace i [⟨1, 0⟩, ⟨2, 0⟩] (advance 4 [⟨1, 0⟩, ⟨2, 0⟩]).2 →
        t ≤ 4) ∧
      (∀ i, i < ([(⟨1, 0⟩ : Cluster), ⟨2, 0⟩] : List Cluster).length →
        timeAt (advance 4 [⟨1, 0⟩, ⟨2, 0⟩]).1 i = 4) ∧
      allDone 4 (advance 4 [⟨1, 0⟩, ⟨2, 0⟩]).1 = true) :=
  ⟨by unfold SchedInv; decide, c3_advance_invariants 4 [⟨1, 0⟩, ⟨2, 0⟩]
    (by unfold SchedInv; decide)⟩

/-- C4: with rate `r = 1`, Cluster Assignment puts every element at level 0
(one single cluster) with `Δt_0 = Δt_min`, and the LTS scheduler's run on that
single cluster performs exactly the sub-steps of plain global time stepping
with step `Δt_min`: the sequence of update times equals the GTS reference
schedule and the final state has reached the target. -/
theorem c4_gts_equivalence :
    (∀ dts : List ℚ, clusterAssign 1 dts = List.replicate dts.length 0) ∧
    (∀ dts : List ℚ, dtOfLevel 1 (minOf dts) 0 = minOf dts) ∧
    (∀ s n : Nat, 0 < s →
      ((advance (n * s) [⟨s, 0⟩]).2.map fun e => timeAt e.2 0) = gtsTimes s (n * s) ∧
      (advance (n * s) [⟨s, 0⟩]).1 = [⟨s, n * s⟩]) := by
  refine ⟨?_, ?_, ?_⟩
  · intro dts
    show dts.map (assignLevel 1 (minOf dts)) = _
    have h0 : dts.map (assignLevel 1 (minOf dts)) = dts.map fun _ => 0 :=
      List.map_congr_left fun x _ => by simp [assignLevel]
    rw [h0]
    simp
  · intro dts
    simp [dtOfLevel]
  · intro s n hs
    have h := oneCluster s hs n 0 (n * s * 1)
      (by
        have : n ≤ n * s := Nat.le_mul_of_pos_right n hs
        omega)
    simp only [Nat.zero_add] at h
    constructor
    · show ((advanceAux (n * s) (n * s * 1) [⟨s, 0⟩]).2.map fun e => timeAt e.2 0) = _
      rw [h]
      dsimp only
      rw [List.map_map, gtsTimes, Nat.mul_div_cancel n hs]
      apply List.map_congr_left
      intro j _
      rfl
    · show (advanceAux (n * s) (n * s * 1) [⟨s, 0⟩]).1 = _
      rw [h]

/-- Witness for C4 at a concrete global step (`Δt_min = 2`, three steps). -/
theorem c4_gts_equivalence_witness :
    ((advance (3 * 2) [⟨2, 0⟩]).2.map fun e => timeAt e.2 0) = gtsTimes 2 (3 * 2) ∧
    (advance (3 * 2) [⟨2, 0⟩]).1 = [⟨2, 3 * 2⟩] :=
  c4_gts_equivalence.2.2 2 3 (by decide)

/-! ### Cluster assignment lemmas -/

lemma minOf_le : ∀ (dts : List ℚ), ∀ x ∈ dts, minOf dts ≤ x
  | [], x, hx => by simp at hx
  | [y], x, hx => by
    rcases List.mem_singleton.mp hx with rfl
    exact le_refl _
  | y :: z :: rest, x, hx => by
    rcases List.mem_cons.mp hx with rfl | hx
    · exact min_le_left _ _
    · exact le_trans (min_le_right _ _) (minOf_le (z :: rest) x hx)

lemma minOf_pos : ∀ (dts : List ℚ), dts ≠ [] → (∀ x ∈ dts, 0 < x) → 0 < minOf dts
  | [], h, _ => absurd rfl h
  | [y], _, hp => hp y (by simp)
  | y :: z :: rest, _, hp => by
    have h1 := hp y (by simp)
    have h2 := minOf_pos (z :: rest) (by simp) fun x hx => hp x (by simp [hx])
    show 0 < min y (minOf (z :: rest))
    exact lt_min h1 h2

lemma level_le_bound (rate : ℕ) (dtmin dte : ℚ) (hr : 2 ≤ rate) (hmin : 0 < dtmin)
    (hle : dtmin ≤ dte) (c : ℕ) (hc : (rate : ℚ) ^ c * dtmin ≤ dte) :
    c ≤ levelBound (dte / dtmin) := by
  have hq1 : (1 : ℚ) ≤ dte / dtmin := (one_le_div hmin).mpr hle
  have hrc : (rate : ℚ) ^ c ≤ dte / dtmin := by
    rw [le_div_iff hmin]
    exact hc
  have h2c : (2 : ℚ) ^ c ≤ (rate : ℚ) ^ c := by
    apply pow_le_pow_left (by norm_num)
    exact_mod_cast hr
  have hc2 : (c : ℚ) < 2 ^ c := by
    have := Nat.lt_two_pow c
    exact_mod_cast this
  have hcq : (c : ℚ) < dte / dtmin := lt_of_lt_of_le hc2 (le_trans h2c hrc)
  have hqpos : (0 : ℚ) < dte / dtmin := lt_of_lt_of_le one_pos hq1
  have hnum0 : (0 : ℚ) ≤ ((dte / dtmin).num : ℚ) := by
    exact_mod_cast le_of_lt (Rat.num_pos.mpr hqpos)
  have hden : (1 : ℚ) ≤ ((dte / dtmin).den : ℚ) := by
    exact_mod_cast (dte / dtmin).pos
  have hqnum : dte / dtmin ≤ (((dte / dtmin).num : ℤ) : ℚ) := by
    conv_lhs => rw [← Rat.num_div_den (dte / dtmin)]
    rw [div_le_iff (by linarith : (0 : ℚ) < ((dte / dtmin).den : ℚ))]
    exact le_mul_of_one_le_right hnum0 hden
  have hfin : (c : ℚ) < (((dte / dtmin).num : ℤ) : ℚ) := lt_of_lt_of_le hcq hqnum
  have hz : (c : ℤ) < (dte / dtmin).num := by exact_mod_cast hfin
  show c ≤ (dte / dtmin).num.toNat
  omega

lemma assignLevel_spec (rate : ℕ) (dtmin dte : ℚ) (hr : 2 ≤ rate) (hmin : 0 < dtmin)
    (hle : dtmin ≤ dte) :
    (rate : ℚ) ^ (assignLevel rate dtmin dte) * dtmin ≤ dte ∧
      ∀ c, (rate : ℚ) ^ c * dtmin ≤ dte → c ≤ assignLevel rate dtmin dte := by
  have hnot : ¬ rate ≤ 1 := by omega
  unfold assignLevel
  rw [if_neg hnot]
  constructor
  · have h0 : levelPred rate dtmin dte 0 := by
      unfold levelPred
      simpa using hle
    show levelPred rate dtmin dte
      (Nat.findGreatest (levelPred rate dtmin dte) (levelBound (dte / dtmin)))
    exact Nat.findGreatest_spec (Nat.zero_le _) h0
  · intro c hc
    have hc' : levelPred rate dtmin dte c := hc
    exact Nat.le_findGreatest (level_le_bound rate dtmin dte hr hmin hle c hc) hc'

/-- C2 counterexample: the claim includes rate `r = 1`, but for `r = 1` there is
no largest admissible level and the strict upper bound fails.  Concretely, for
stable steps `{1, 2}` and `r = 1`, the element with `Δt_e = 2` is assigned
level 0 and `Δt_{0+1} = 1^1 · Δt_min = 1`, so `Δt_e < Δt_{c+1}` is false. -/
theorem c2_cluster_assignment_counterexample :
    ¬ ((2 : ℚ) < dtOfLevel 1 (minOf [1, 2])
        ((clusterAssign 1 [1, 2]).getD 1 0 + 1)) := by
  have h1 : clusterAssign 1 [1, 2] = [0, 0] := by
    show ([1, 2] : List ℚ).map (assignLevel 1 (minOf [1, 2])) = [0, 0]
    simp [assignLevel]
  rw [h1]
  norm_num [dtOfLevel, minOf, min_def]

/-- C2 (amended): for every nonempty set of elements with positive stable time
steps and every rate `r ≥ 2`, Cluster Assignment gives each element the largest
level `c` with `r^c · Δt_min ≤ Δt_e` (so a tie at an exact power-of-`r`
boundary rounds to the coarser cluster), and consequently
`Δt_c ≤ Δt_e < Δt_{c+1}`.  For `r = 1` (excluded from the original claim's
strict upper bound by this amendment) every element is assigned level 0 — the
single global cluster — and the stability bound `Δt_0 = Δt_min ≤ Δt_e` still
holds. -/
theorem c2_cluster_assignment :
    (∀ (rate : ℕ) (dts : List ℚ), dts ≠ [] → (∀ x ∈ dts, 0 < x) → 2 ≤ rate →
      ∀ dte ∈ dts,
        dtOfLevel rate (minOf dts) (assignLevel rate (minOf dts) dte) ≤ dte ∧
        dte < dtOfLevel rate (minOf dts) (assignLevel rate (minOf dts) dte + 1) ∧
        (∀ c, dtOfLevel rate (minOf dts) c ≤ dte →
          c ≤ assignLevel rate (minOf dts) dte)) ∧
    (∀ dts : List ℚ, dts ≠ [] → (∀ x ∈ dts, 0 < x) →
      clusterAssign 1 dts = List.replicate dts.length 0 ∧
      ∀ dte ∈ dts, dtOfLevel 1 (minOf dts) 0 ≤ dte) := by
  constructor
  · intro rate dts hne hpos hr dte hdte
    have hmin : 0 < minOf dts := minOf_pos dts hne hpos
    have hle : minOf dts ≤ dte := minOf_le dts dte hdte
    obtain ⟨hspec, hmax⟩ := assignLevel_spec rate (minOf dts) dte hr hmin hle
    refine ⟨hspec, ?_, hmax⟩
    by_contra hcon
    push_neg at hcon
    have hcle : (rate : ℚ) ^ (assignLevel rate (minOf dts) dte + 1) * minOf dts ≤ dte :=
      hcon
    have := hmax _ hcle
    omega
  · intro dts hne hpos
    constructor
    · show dts.map (assignLevel 1 (minOf dts)) = _
      have h0 : dts.map (assignLevel 1 (minOf dts)) = dts.map fun _ => 0 :=
        List.map_congr_left fun x _ => by simp [assignLevel]
      rw [h0]
      simp
    · intro dte hdte
      simpa [dtOfLevel] using minOf_le dts dte hdte

/-- Witness for the amended C2 at concrete inputs (`r = 2`, steps `{1, 2}`,
element `Δt_e = 2`; and the `r = 1` degenerate single-cluster case). -/
theorem c2_cluster_assignment_witness :
    (dtOfLevel 2 (minOf [1, 2]) (assignLevel 2 (minOf [1, 2]) 2) ≤ 2 ∧
      (2 : ℚ) < dtOfLevel 2 (minOf [1, 2]) (assignLevel 2 (minOf [1, 2]) 2 + 1) ∧
      (∀ c, dtOfLevel 2 (minOf [1, 2]) c ≤ 2 → c ≤ assignLevel 2 (minOf [1, 2]) 2)) ∧
    clusterAssign 1 [1, 2] = List.replicate ([1, 2] : List ℚ).length 0 :=
  ⟨c2_cluster_assignment.1 2 [1, 2] (by simp) (by norm_num) (by norm_num) 2 (by norm_num),
    (c2_cluster_assignment.2 [1, 2] (by simp) (by norm_num)).1⟩

/-! ### Claim theorems: friction laws -/

/-- C5: for the LSW law, at accumulated slip exactly `D_c` the shear strength
equals `μ_d · σ_n`, and for every accumulated slip ≥ `D_c` the strength stays
pinned at `μ_d · σ_n` — further slip never changes it (idempotence past the
weakening distance); in particular for `μ_s = 0.7`, `μ_d = 0.1`, `D_c = 0.4`. -/
theorem c5_lsw_pinned (p : LSWParams) (sigma : ℚ) :
    lswStrength p sigma p.d_c = p.mu_d * sigma ∧
    (∀ slip, p.d_c ≤ slip → lswStrength p sigma slip = p.mu_d * sigma) ∧
    (lswStrength ⟨0.7, 0.1, 0.4⟩ sigma 0.4 = 0.1 * sigma ∧
      ∀ slip, (0.4 : ℚ) ≤ slip →
        lswStrength ⟨0.7, 0.1, 0.4⟩ sigma slip = 0.1 * sigma) := by
  have hgen : ∀ (q : LSWParams) (slip : ℚ), q.d_c ≤ slip →
      lswStrength q sigma slip = q.mu_d * sigma := by
    intro q slip hs
    rw [lswStrength, lswMu, if_pos hs]
  exact ⟨hgen p p.d_c le_rfl, fun slip hs => hgen p slip hs,
    hgen ⟨0.7, 0.1, 0.4⟩ 0.4 le_rfl, fun slip hs => hgen _ slip hs⟩

/-- Witness for C5 with the TPV13 parameters at `σ_n = 3` and slip 1 ≥ `D_c`. -/
theorem c5_lsw_pinned_witness :
    lswStrength ⟨0.7, 0.1, 0.4⟩ 3 0.4 = 0.1 * 3 ∧
    ((0.4 : ℚ) ≤ 1 ∧ lswStrength ⟨0.7, 0.1, 0.4⟩ 3 1 = 0.1 * 3) :=
  ⟨(c5_lsw_pinned ⟨0.7, 0.1, 0.4⟩ 3).1, by norm_num,
    (c5_lsw_pinned ⟨0.7, 0.1, 0.4⟩ 3).2.1 1 (by norm_num)⟩

/-- C6: for both friction-law variants, the shear stress returned by `update`
never exceeds the variant's current frictional strength bound (the friction
coefficient implied by the current state times the normal stress; zero when
the fault is open). -/
theorem c6_shear_le_bound :
    (∀ (p : LSWParams) (slip sigma tau dt : ℚ),
      (lswUpdate p slip sigma tau dt).1 ≤ lswBound p sigma slip) ∧
    (∀ (mu : ℚ → ℚ → ℚ) (evolve : ℚ → ℚ → ℚ → ℚ) (p : RSParams)
        (theta sigma tau dt shear slipRate newState : ℚ),
      rsUpdate mu evolve p theta sigma tau dt = .ok shear slipRate newState →
      shear ≤ rsBound mu sigma slipRate theta) := by
  constructor
  · intro p slip sigma tau dt
    rw [lswUpdate, lswBound]
    by_cases h1 : sigma ≤ 0
    · rw [if_pos h1, if_pos h1]
    · rw [if_neg h1, if_neg h1]
      by_cases h2 : tau ≤ lswStrength p sigma slip
      · rw [if_pos h2]
        exact h2
      · rw [if_neg h2]
  · intro mu evolve p theta sigma tau dt shear slipRate newState hok
    rw [rsUpdate] at hok
    by_cases h1 : sigma ≤ 0
    · rw [if_pos h1] at hok
      cases hok
      rw [rsBound, if_pos h1]
    · rw [if_neg h1] at hok
      rcases hs1 : rsSolve mu p sigma tau theta p.tol with _ | v
      · rw [hs1] at hok
        rcases hs2 : rsSolve mu p sigma tau theta (p.relax * p.tol) with _ | v
        · rw [hs2] at hok
          cases hok
        · rw [hs2] at hok
          cases hok
          rw [rsBound, if_neg h1]
      · rw [hs1] at hok
        cases hok
        rw [rsBound, if_neg h1]

/-- Witness for C6 at concrete inputs: the LSW part with the TPV13 parameters
and a sliding trial stress; the RS part with a constant-coefficient law that
converges in the accepted attempt. -/
theorem c6_shear_le_bound_witness :
    (lswUpdate ⟨0.7, 0.1, 0.4⟩ 0 1 5 1).1 ≤ lswBound ⟨0.7, 0.1, 0.4⟩ 1 0 ∧
    (rsUpdate (fun _ _ => 1) (fun theta _ _ => theta) ⟨1, 0, 1, 2⟩ 0 1 2 1 =
        RSResult.ok 1 0 0 ∧
      (1 : ℚ) ≤ rsBound (fun _ _ => 1) 1 0 0) := by
  have hok : rsUpdate (fun _ _ => (1 : ℚ)) (fun theta _ _ => theta) ⟨1, 0, 1, 2⟩ 0 1 2 1 =
      RSResult.ok 1 0 0 := by
    norm_num [rsUpdate, rsSolve, rsIter, rsResidual]
  exact ⟨c6_shear_le_bound.1 ⟨0.7, 0.1, 0.4⟩ 0 1 5 1, hok,
    c6_shear_le_bound.2 (fun _ _ => 1) (fun theta _ _ => theta) ⟨1, 0, 1, 2⟩
      0 1 2 1 1 0 0 hok⟩

/-- C7: whenever the normal stress is ≤ 0 (fault opening), both friction-law
variants return zero shear resistance for that sub-step and neither raises an
error: the LSW update returns shear 0, and the RS update returns a regular
(non-`FrictionSolveError`) result with shear 0. -/
theorem c7_fault_opening (p : LSWParams) (mu : ℚ → ℚ → ℚ)
    (evolve : ℚ → ℚ → ℚ → ℚ) (q : RSParams) (slip theta sigma tau dt : ℚ)
    (hopen : sigma ≤ 0) :
    (lswUpdate p slip sigma tau dt).1 = 0 ∧
    rsUpdate mu evolve q theta sigma tau dt =
      .ok 0 (tau / q.eta) (evolve theta (tau / q.eta) dt) := by
  constructor
  · rw [lswUpdate, if_pos hopen]
  · rw [rsUpdate, if_pos hopen]

/-- Witness for C7 at `σ_n = -1` with concrete parameters for both variants. -/
theorem c7_fault_opening_witness :
    (-1 : ℚ) ≤ 0 ∧
    (lswUpdate ⟨0.7, 0.1, 0.4⟩ 0 (-1) 5 1).1 = 0 ∧
    rsUpdate (fun _ _ => 1) (fun theta _ _ => theta) ⟨1, 0, 1, 2⟩ 0 (-1) 5 1 =
      .ok 0 (5 / (⟨1, 0, 1, 2⟩ : RSParams).eta)
        ((fun theta _ _ => theta) 0 (5 / (⟨1, 0, 1, 2⟩ : RSParams).eta) 1) := by
  refine ⟨by norm_num, ?_, ?_⟩
  · exact (c7_fault_opening ⟨0.7, 0.1, 0.4⟩ (fun _ _ => 1) (fun theta _ _ => theta)
      ⟨1, 0, 1, 2⟩ 0 0 (-1) 5 1 (by norm_num)).1
  · exact (c7_fault_opening ⟨0.7, 0.1, 0.4⟩ (fun _ _ => 1) (fun theta _ _ => theta)
      ⟨1, 0, 1, 2⟩ 0 0 (-1) 5 1 (by norm_num)).2

lemma rsSolve_eq_some (mu : ℚ → ℚ → ℚ) (p : RSParams) (sigma tau theta tol v : ℚ)
    (h : rsSolve mu p sigma tau theta tol = some v) :
    v = rsIter mu p sigma tau theta p.maxIter 0 ∧
      |rsResidual mu p sigma tau theta v| ≤ tol := by
  rw [rsSolve] at h
  split at h
  case isTrue hc =>
    cases h
    exact ⟨rfl, hc⟩
  case isFalse hc =>
    cases h

lemma rsSolve_eq_none (mu : ℚ → ℚ → ℚ) (p : RSParams) (sigma tau theta tol : ℚ) :
    rsSolve mu p sigma tau theta tol = none ↔
      ¬ |rsResidual mu p sigma tau theta
          (rsIter mu p sigma tau theta p.maxIter 0)| ≤ tol := by
  rw [rsSolve]
  split
  case isTrue hc => simp [hc]
  case isFalse hc => simp [hc]

/-- C8: with the fault in contact (`σ_n > 0`), the RS update raises
`FrictionSolveError` if and only if both the bounded local solve at the
configured tolerance and the single permitted retry at the relaxed tolerance
fail to converge; a solve attempt fails exactly when the residual of the
bounded iterate exceeds its tolerance; and every successful update carries a
slip rate whose residual meets the tolerance that admitted it (the first
attempt's tolerance, or — only after the first attempt failed — the relaxed
one), so no unconverged value is ever silently substituted. -/
theorem c8_rs_error_policy (mu : ℚ → ℚ → ℚ) (evolve : ℚ → ℚ → ℚ → ℚ)
    (p : RSParams) (theta sigma tau dt : ℚ) (hsig : 0 < sigma) :
    (rsUpdate mu evolve p theta sigma tau dt = .solveError ↔
      (rsSolve mu p sigma tau theta p.tol = none ∧
        rsSolve mu p sigma tau theta (p.relax * p.tol) = none)) ∧
    (∀ tol, rsSolve mu p sigma tau theta tol = none ↔
      ¬ |rsResidual mu p sigma tau theta
          (rsIter mu p sigma tau theta p.maxIter 0)| ≤ tol) ∧
    (∀ shear slipRate newState,
      rsUpdate mu evolve p theta sigma tau dt = .ok shear slipRate newState →
      (|rsResidual mu p sigma tau theta slipRate| ≤ p.tol ∨
        (rsSolve mu p sigma tau theta p.tol = none ∧
          |rsResidual mu p sigma tau theta slipRate| ≤ p.relax * p.tol))) := by
  have hns : ¬ sigma ≤ 0 := not_le.mpr hsig
  refine ⟨?_, fun tol => rsSolve_eq_none mu p sigma tau theta tol, ?_⟩
  · rw [rsUpdate, if_neg hns]
    rcases hs1 : rsSolve mu p sigma tau theta p.tol with _ | v
    · rcases hs2 : rsSolve mu p sigma tau theta (p.relax * p.tol) with _ | v
      · simp
      · simp
    · simp
  · intro shear slipRate newState hok
    rw [rsUpdate, if_neg hns] at hok
    cases hs1 : rsSolve mu p sigma tau theta p.tol with
    | some v =>
      rw [hs1] at hok
      cases hok
      exact Or.inl (rsSolve_eq_some mu p sigma tau theta p.tol slipRate hs1).2
    | none =>
      rw [hs1] at hok
      cases hs2 : rsSolve mu p sigma tau theta (p.relax * p.tol) with
      | some v =>
        rw [hs2] at hok
        cases hok
        exact Or.inr ⟨rfl, (rsSolve_eq_some mu p sigma tau theta _ slipRate hs2).2⟩
      | none =>
        rw [hs2] at hok
        cases hok

/-- Witness for C8 at a concrete converging instance (`σ_n = 1`). -/
theorem c8_rs_error_policy_witness :
    (0 : ℚ) < 1 ∧
    (rsUpdate (fun _ _ => 1) (fun theta _ _ => theta) ⟨1, 0, 1, 2⟩ 0 1 2 1 =
        RSResult.solveError ↔
      (rsSolve (fun _ _ => 1) ⟨1, 0, 1, 2⟩ 1 2 0 (⟨1, 0, 1, 2⟩ : RSParams).tol = none ∧
        rsSolve (fun _ _ => 1) ⟨1, 0, 1, 2⟩ 1 2 0
          ((⟨1, 0, 1, 2⟩ : RSParams).relax * (⟨1, 0, 1, 2⟩ : RSParams).tol) = none)) :=
  ⟨by norm_num,
    (c8_rs_error_policy (fun _ _ => 1) (fun theta _ _ => theta) ⟨1, 0, 1, 2⟩
      0 1 2 1 (by norm_num)).1⟩

/-! ### Claim theorems: the TPV13 notebook's stress computation -/

lemma traction_forms {F : Type} [Field F] (k sm s c : F) :
    sigma_n k sm s c = k * sm * s ^ 2 + sm * c ^ 2 ∧
    sigma_d k sm s c = (1 - k) * sm * s * c := by
  constructor
  · rw [sigma_n, traction, stressTensor, u_n]
    simp [Matrix.dotProduct, Matrix.mulVec_diagonal, Fin.sum_univ_three]
    ring
  · rw [sigma_d, traction, stressTensor, u_n, udip]
    simp [Matrix.dotProduct, Matrix.mulVec_diagonal, Fin.sum_univ_three]
    ring

lemma prestressR_scale {F : Type} [Field F] (k sm s c mus mud : F) (hsm : sm ≠ 0) :
    prestressR k sm s c mus mud = prestressR k 1 s c mus mud := by
  obtain ⟨hn, hd⟩ := traction_forms k sm s c
  obtain ⟨hn1, hd1⟩ := traction_forms k 1 s c
  rw [prestressR, prestressR, hn, hd, hn1, hd1]
  rw [show (1 - k) * sm * s * c - mud * (k * sm * s ^ 2 + sm * c ^ 2) =
      sm * ((1 - k) * 1 * s * c - mud * (k * 1 * s ^ 2 + 1 * c ^ 2)) by ring]
  rw [show (mus - mud) * (k * sm * s ^ 2 + sm * c ^ 2) =
      sm * ((mus - mud) * (k * 1 * s ^ 2 + 1 * c ^ 2)) by ring]
  exact mul_div_mul_left _ _ hsm

/-- C9: for all values of `dip`, `s3_to_s1` and `sigma_max`, the fault
tractions computed symbolically in the TPV13 notebook from the stress tensor
`diag((1 + s3_to_s1)·sigma_max/2, s3_to_s1·sigma_max, sigma_max)` and the
normal vector `(0, −sin dip, cos dip)` satisfy the closed forms
`sigma_n = s3_to_s1·sigma_max·sin²(dip) + sigma_max·cos²(dip)` and
`sigma_d = (1 − s3_to_s1)·sigma_max·sin(dip)·cos(dip)`; the identities hold
for arbitrary symbolic values `s = sin dip`, `c = cos dip`, exactly as in the
notebook's sympy computation. -/
theorem c9_traction_closed_forms (k sm s c : ℚ) :
    sigma_n k sm s c = k * sm * s ^ 2 + sm * c ^ 2 ∧
    sigma_d k sm s c = (1 - k) * sm * s * c :=
  traction_forms k sm s c

/-- C10: the notebook's relative prestress ratio
`R = (sigma_d − mu_d·sigma_n)/((mu_s − mu_d)·sigma_n)` evaluated at
`dip = π/3`, `s3_to_s1 = 0.3495`, `mu_d = 0.1` (for any nonzero `sigma_max`,
which cancels) is strictly below 1 for the fault's static friction
`mu_s = 0.7` and strictly above 1 for the nucleation-patch static friction
`mu_s = 0.54`: only the nucleation patch is critically stressed. -/
theorem c10_prestress_critical (sm : ℝ) (hsm : sm ≠ 0) :
    prestressR 0.3495 sm (Real.sin (Real.pi / 3)) (Real.cos (Real.pi / 3)) 0.7 0.1 < 1 ∧
    1 < prestressR 0.3495 sm (Real.sin (Real.pi / 3)) (Real.cos (Real.pi / 3)) 0.54 0.1 := by
  have hs : Real.sin (Real.pi / 3) = Real.sqrt 3 / 2 := Real.sin_pi_div_three
  have hc : Real.cos (Real.pi / 3) = 1 / 2 := Real.cos_pi_div_three
  have hS2 : Real.sqrt 3 ^ 2 = 3 := Real.sq_sqrt (by norm_num)
  have hS0 : (0 : ℝ) ≤ Real.sqrt 3 := Real.sqrt_nonneg 3
  have hSlt : Real.sqrt 3 < 1.81 := by nlinarith [hS2, hS0, sq_nonneg (Real.sqrt 3 - 1.81)]
  have hSgt : (1.71 : ℝ) < Real.sqrt 3 := by
    nlinarith [hS2, hS0, sq_nonneg (Real.sqrt 3 - 1.71)]
  have h34 : (Real.sqrt 3 / 2) ^ 2 = 3 / 4 := by
    rw [div_pow, hS2]
    norm_num
  constructor
  · rw [prestressR_scale _ _ _ _ _ _ hsm, hs, hc]
    obtain ⟨hn, hd⟩ := traction_forms (0.3495 : ℝ) 1 (Real.sqrt 3 / 2) (1 / 2)
    rw [prestressR, hn, hd, h34]
    rw [div_lt_one (by norm_num)]
    nlinarith [hSlt]
  · rw [prestressR_scale _ _ _ _ _ _ hsm, hs, hc]
    obtain ⟨hn, hd⟩ := traction_forms (0.3495 : ℝ) 1 (Real.sqrt 3 / 2) (1 / 2)
    rw [prestressR, hn, hd, h34]
    rw [lt_div_iff (by norm_num)]
    nlinarith [hSgt]

/-- Witness for C10 at `sigma_max = 1`. -/
theorem c10_prestress_critical_witness :
    (1 : ℝ) ≠ 0 ∧
    (prestressR 0.3495 1 (Real.sin (Real.pi / 3)) (Real.cos (Real.pi / 3)) 0.7 0.1 < 1 ∧
      1 < prestressR 0.3495 1 (Real.sin (Real.pi / 3)) (Real.cos (Real.pi / 3)) 0.54 0.1) :=
  ⟨one_ne_zero, c10_prestress_critical 1 one_ne_zero⟩
